import Mathlib

/-!
Verification development for the incremental indexing core of
semantic-context-mcp (src/vector_search/).

The Python source is shallowly embedded:
- dictionaries (`Dict[str, str]`) become association lists `List (String × String)`
  with Python-dict insertion/overwrite semantics (`dictInsert`, `dlook`);
- the Merkle tree (`code_change_tracker.py`, class `MerkleNode`) becomes an
  inductive type with a leaf/internal distinction;
- file system reads become `Option String` arguments (the decoded text, or
  `none` when reading/decoding raised);
- vector store calls become `Except String` arguments describing the outcome
  of the underlying chroma client call;
- SHA-256 (`hashlib.sha256(...).hexdigest()`) is implemented in full over
  UTF-8 byte lists.
-/

/-! ### Association lists with Python-dict semantics -/

/-- Lookup in an association list: `d[k]` for a Python dict represented as a
key-ordered list of entries (first entry with the key wins; a dict never has
two entries with the same key). -/
def dlook (k : String) : List (String × String) → Option String
  | [] => none
  | (k', v) :: rest => if k' = k then some v else dlook k rest

/-- Python dict assignment `d[k] = v`: overwrite the value in place if the key
is present, otherwise append a new entry. -/
def dictInsert (d : List (String × String)) (k v : String) : List (String × String) :=
  if (dlook k d).isSome then
    d.map (fun e => if e.1 = k then (k, v) else e)
  else
    d ++ [(k, v)]

/-- Python dict `d.pop(k, None)`: drop the entry with key `k` (on a dict the
key occurs at most once, so filtering is the same operation). -/
def dictRemove (d : List (String × String)) (k : String) : List (String × String) :=
  d.filter (fun e => ¬ e.1 = k)

/-- Keys of an association list, in entry order. -/
def dkeys (d : List (String × String)) : List String := d.map Prod.fst

theorem dlook_mem {k v : String} : ∀ {d : List (String × String)},
    dlook k d = some v → (k, v) ∈ d := by
  intro d
  induction d with
  | nil => intro h; simp [dlook] at h
  | cons e rest ih =>
      intro h
      by_cases he : e.1 = k
      · obtain ⟨k', v'⟩ := e
        simp only [dlook] at h
        simp only at he
        rw [if_pos he] at h
        cases h
        subst he
        exact List.mem_cons_self _ _
      · obtain ⟨k', v'⟩ := e
        simp only [dlook] at h
        simp only at he
        rw [if_neg he] at h
        exact List.mem_cons_of_mem _ (ih h)

theorem dlook_eq_none_iff {k : String} : ∀ {d : List (String × String)},
    dlook k d = none ↔ k ∉ dkeys d := by
  intro d
  induction d with
  | nil => simp [dlook, dkeys]
  | cons e rest ih =>
      obtain ⟨k', v'⟩ := e
      by_cases he : k' = k
      · subst he
        simp [dlook, dkeys]
      · simp only [dlook, if_neg he, dkeys, List.map_cons, List.mem_cons]
        rw [ih]
        constructor
        · intro h hor
          rcases hor with h1 | h2
          · exact he h1.symm
          · exact h h2
        · intro h h2
          exact h (Or.inr h2)

theorem dlook_isSome_iff {k : String} {d : List (String × String)} :
    (dlook k d).isSome = true ↔ k ∈ dkeys d := by
  rw [Option.isSome_iff_ne_none]
  constructor
  · intro h
    by_contra hk
    exact h (dlook_eq_none_iff.mpr hk)
  · intro h hn
    exact dlook_eq_none_iff.mp hn h

theorem dlook_of_mem_nodup {k v : String} : ∀ {d : List (String × String)},
    (dkeys d).Nodup → (k, v) ∈ d → dlook k d = some v := by
  intro d
  induction d with
  | nil => intro _ h; simp at h
  | cons e rest ih =>
      intro hnd hm
      obtain ⟨k', v'⟩ := e
      simp only [dkeys, List.map_cons, List.nodup_cons] at hnd
      rcases List.mem_cons.mp hm with h1 | h2
      · cases h1
        simp [dlook]
      · have hk : k' ≠ k := by
          intro he
          subst he
          exact hnd.1 (List.mem_map.mpr ⟨(k', v), h2, rfl⟩)
        simp only [dlook, if_neg hk]
        exact ih hnd.2 h2

theorem mem_dictInsert_iff {d : List (String × String)} {k v : String} {e : String × String} :
    e ∈ dictInsert d k v ↔ (e = (k, v) ∨ (e ∈ d ∧ e.1 ≠ k)) := by
  unfold dictInsert
  by_cases hs : (dlook k d).isSome = true
  · rw [if_pos hs]
    constructor
    · intro h
      obtain ⟨a, ha, hae⟩ := List.mem_map.mp h
      by_cases hak : a.1 = k
      · left; rw [if_pos hak] at hae; exact hae.symm
      · right; rw [if_neg hak] at hae; exact ⟨hae ▸ ha, hae ▸ hak⟩
    · intro h
      rcases h with h1 | ⟨h2, h3⟩
      · obtain ⟨w, hw⟩ := Option.isSome_iff_exists.mp hs
        have hkw : (k, w) ∈ d := dlook_mem hw
        refine List.mem_map.mpr ⟨(k, w), hkw, ?_⟩
        simp [h1]
      · refine List.mem_map.mpr ⟨e, h2, ?_⟩
        rw [if_neg h3]
  · rw [if_neg hs]
    have hk : k ∉ dkeys d := by
      rw [← dlook_isSome_iff]
      exact fun hc => hs hc
    simp only [List.mem_append, List.mem_singleton]
    constructor
    · intro h
      rcases h with h1 | h2
      · right
        refine ⟨h1, ?_⟩
        intro hek
        exact hk (hek ▸ List.mem_map.mpr ⟨e, h1, rfl⟩)
      · left; exact h2
    · intro h
      rcases h with h1 | ⟨h2, _⟩
      · right; exact h1
      · left; exact h2

theorem dkeys_dictInsert {d : List (String × String)} {k v p : String} :
    p ∈ dkeys (dictInsert d k v) ↔ (p = k ∨ p ∈ dkeys d) := by
  unfold dkeys
  constructor
  · intro h
    obtain ⟨e, he, hep⟩ := List.mem_map.mp h
    rcases mem_dictInsert_iff.mp he with h1 | ⟨h2, _⟩
    · left; rw [h1] at hep; exact hep.symm
    · right; exact List.mem_map.mpr ⟨e, h2, hep⟩
  · intro h
    rcases h with h1 | h2
    · subst h1
      exact List.mem_map.mpr ⟨(p, v), mem_dictInsert_iff.mpr (Or.inl rfl), rfl⟩
    · obtain ⟨e, he, hep⟩ := List.mem_map.mp h2
      by_cases hek : e.1 = k
      · refine List.mem_map.mpr ⟨(k, v), mem_dictInsert_iff.mpr (Or.inl rfl), ?_⟩
        show k = p
        rw [← hek]
        exact hep
      · exact List.mem_map.mpr ⟨e, mem_dictInsert_iff.mpr (Or.inr ⟨he, hek⟩), hep⟩

theorem dkeys_nodup_dictInsert {d : List (String × String)} {k v : String}
    (h : (dkeys d).Nodup) : (dkeys (dictInsert d k v)).Nodup := by
  unfold dictInsert
  by_cases hs : (dlook k d).isSome = true
  · rw [if_pos hs]
    have : dkeys (d.map (fun e => if e.1 = k then (k, v) else e)) = dkeys d := by
      unfold dkeys
      rw [List.map_map]
      apply List.map_congr_left
      intro e _
      by_cases hek : e.1 = k
      · simp [hek]
      · simp [hek]
    rw [this]
    exact h
  · rw [if_neg hs]
    have hk : k ∉ dkeys d := by
      rw [← dlook_isSome_iff]
      exact fun hc => hs hc
    unfold dkeys
    rw [List.map_append]
    simp only [List.map_cons, List.map_nil]
    rw [List.nodup_append]
    refine ⟨h, List.nodup_singleton k, ?_⟩
    intro a ha hb
    rw [List.mem_singleton] at hb
    subst hb
    exact hk ha

theorem dlook_map_overwrite {k v p : String} (hp : p ≠ k) :
    ∀ d : List (String × String),
      dlook p (d.map (fun e => if e.1 = k then (k, v) else e)) = dlook p d := by
  intro d
  induction d with
  | nil => rfl
  | cons e rest ih =>
      obtain ⟨k', v'⟩ := e
      simp only [List.map_cons]
      by_cases hek : ((k', v') : String × String).1 = k
      · rw [if_pos hek]
        simp only at hek
        subst hek
        simp only [dlook]
        rw [if_neg (fun h => hp h.symm), if_neg (fun h => hp h.symm)]
        exact ih
      · rw [if_neg hek]
        simp only [dlook]
        by_cases hpk : k' = p
        · rw [if_pos hpk, if_pos hpk]
        · rw [if_neg hpk, if_neg hpk]
          exact ih

theorem dlook_append_single {k v p : String} (hp : p ≠ k) :
    ∀ d : List (String × String), dlook p (d ++ [(k, v)]) = dlook p d := by
  intro d
  induction d with
  | nil =>
      simp only [List.nil_append, dlook]
      rw [if_neg (fun h => hp h.symm)]
  | cons e rest ih =>
      obtain ⟨k', v'⟩ := e
      simp only [List.cons_append, dlook]
      by_cases hpk : k' = p
      · rw [if_pos hpk, if_pos hpk]
      · rw [if_neg hpk, if_neg hpk]
        exact ih

/-- Untouched keys keep their value under `dictInsert`. -/
theorem dlook_dictInsert_ne {d : List (String × String)} {k v p : String} (hp : p ≠ k) :
    dlook p (dictInsert d k v) = dlook p d := by
  unfold dictInsert
  by_cases hs : (dlook k d).isSome = true
  · rw [if_pos hs]
    exact dlook_map_overwrite hp d
  · rw [if_neg hs]
    exact dlook_append_single hp d

/-! ### SHA-256 over UTF-8 byte lists

Embeds `hashlib.sha256(text.encode()).hexdigest()` as used by
`compute_file_hash` and `_hash_pair` in code_change_tracker.py.
Bytes and 32-bit words are `Nat` with explicit reduction mod 2^32.
-/

/-- Concatenation-map on lists (kept local for full kernel evaluability). -/
def concatMap (f : α → List β) : List α → List β
  | [] => []
  | a :: l => f a ++ concatMap f l

/-- UTF-8 encoding of a single character (the standard 1-4 byte encoding used
by Python's `str.encode()`). -/
def utf8Char (c : Char) : List Nat :=
  let n := c.toNat
  if n < 128 then [n]
  else if n < 2048 then [192 + n / 64, 128 + n % 64]
  else if n < 65536 then [224 + n / 4096, 128 + n / 64 % 64, 128 + n % 64]
  else [240 + n / 262144, 128 + n / 4096 % 64, 128 + n / 64 % 64, 128 + n % 64]

/-- UTF-8 encoding of a string as a list of byte values. -/
def utf8Encode (s : String) : List Nat := concatMap utf8Char s.data

/-- Truncation to a 32-bit word. -/
def w32 (n : Nat) : Nat := n % 4294967296

/-- Right rotation of a 32-bit word. -/
def rotr (n x : Nat) : Nat := w32 (x / 2 ^ n + x % 2 ^ n * 2 ^ (32 - n))

def shaCh (x y z : Nat) : Nat := (x &&& y) ^^^ ((4294967295 - x % 4294967296) &&& z)

def shaMaj (x y z : Nat) : Nat := (x &&& y) ^^^ (x &&& z) ^^^ (y &&& z)

def bigSigma0 (x : Nat) : Nat := rotr 2 x ^^^ rotr 13 x ^^^ rotr 22 x

def bigSigma1 (x : Nat) : Nat := rotr 6 x ^^^ rotr 11 x ^^^ rotr 25 x

def smallSigma0 (x : Nat) : Nat := rotr 7 x ^^^ rotr 18 x ^^^ x / 8

def smallSigma1 (x : Nat) : Nat := rotr 17 x ^^^ rotr 19 x ^^^ x / 1024

/-- The 64 SHA-256 round constants of FIPS 180-4, written in decimal. -/
def shaK : List Nat :=
  [1116352408, 1899447441, 3049323471, 3921009573,
   961987163, 1508970993, 2453635748, 2870763221,
   3624381080, 310598401, 607225278, 1426881987,
   1925078388, 2162078206, 2614888103, 3248222580,
   3835390401, 4022224774, 264347078, 604807628,
   770255983, 1249150122, 1555081692, 1996064986,
   2554220882, 2821834349, 2952996808, 3210313671,
   3336571891, 3584528711, 113926993, 338241895,
   666307205, 773529912, 1294757372, 1396182291,
   1695183700, 1986661051, 2177026350, 2456956037,
   2730485921, 2820302411, 3259730800, 3345764771,
   3516065817, 3600352804, 4094571909, 275423344,
   430227734, 506948616, 659060556, 883997877,
   958139571, 1322822218, 1537002063, 1747873779,
   1955562222, 2024104815, 2227730452, 2361852424,
   2428436474, 2756734187, 3204031479, 3329325298]

/-- Working state of the compression function. -/
structure H8 where
  a : Nat
  b : Nat
  c : Nat
  d : Nat
  e : Nat
  f : Nat
  g : Nat
  h : Nat
deriving Repr, DecidableEq

def shaInit : H8 :=
  ⟨1779033703, 3144134277, 1013904242, 2773480762,
   1359893119, 2600822924, 528734635, 1541459225⟩

/-- One compression round with constant-plus-schedule word `kw`. -/
def shaRound (st : H8) (kw : Nat) : H8 :=
  let t1 := w32 (st.h + bigSigma1 st.e + shaCh st.e st.f st.g + kw)
  let t2 := w32 (bigSigma0 st.a + shaMaj st.a st.b st.c)
  ⟨w32 (t1 + t2), st.a, st.b, st.c, w32 (st.d + t1), st.e, st.f, st.g⟩

/-- Big-endian 32-bit words from a byte list. -/
def bytesToWords : List Nat → List Nat
  | b0 :: b1 :: b2 :: b3 :: rest => (b0 * 16777216 + b1 * 65536 + b2 * 256 + b3) :: bytesToWords rest
  | _ => []

/-- One step of message-schedule extension: append w[n-16]+s0(w[n-15])+w[n-7]+s1(w[n-2]). -/
def extendStep (ws : List Nat) : List Nat :=
  let n := ws.length
  ws ++ [w32 (ws.getD (n - 16) 0 + smallSigma0 (ws.getD (n - 15) 0) +
              ws.getD (n - 7) 0 + smallSigma1 (ws.getD (n - 2) 0))]

def extendN : Nat → List Nat → List Nat
  | 0, ws => ws
  | k + 1, ws => extendN k (extendStep ws)

/-- The 64-word message schedule for one 64-byte block. -/
def shaSchedule (block : List Nat) : List Nat := extendN 48 (bytesToWords block)

/-- Compress one 64-byte block into the running hash state. -/
def compressBlock (st : H8) (block : List Nat) : H8 :=
  let fin := (shaK.zip (shaSchedule block)).foldl
    (fun s kw => shaRound s (w32 (kw.1 + kw.2))) st
  ⟨w32 (st.a + fin.a), w32 (st.b + fin.b), w32 (st.c + fin.c), w32 (st.d + fin.d),
   w32 (st.e + fin.e), w32 (st.f + fin.f), w32 (st.g + fin.g), w32 (st.h + fin.h)⟩

/-- SHA-256 padding: 0x80, zeros to 56 mod 64, then the bit length in 8 bytes. -/
def shaPad (m : List Nat) : List Nat :=
  let L := m.length
  let zeros := (64 + 56 - (L + 1) % 64) % 64
  let bitLen := L * 8
  m ++ [128] ++ List.replicate zeros 0 ++
    [bitLen / 72057594037927936 % 256, bitLen / 281474976710656 % 256,
     bitLen / 1099511627776 % 256, bitLen / 4294967296 % 256,
     bitLen / 16777216 % 256, bitLen / 65536 % 256, bitLen / 256 % 256, bitLen % 256]

/-- Split a padded message into 64-byte blocks (structural recursion on a fuel
counter so that the kernel can evaluate it; the fuel `l.length` always
suffices because every step consumes at least one byte). -/
def toBlocksFuel : Nat → List Nat → List (List Nat)
  | _, [] => []
  | 0, _ :: _ => []
  | fuel + 1, a :: l => ((a :: l).take 64) :: toBlocksFuel fuel ((a :: l).drop 64)

def toBlocks (l : List Nat) : List (List Nat) := toBlocksFuel l.length l

/-- Big-endian bytes of a 32-bit word. -/
def wordBytes (x : Nat) : List Nat :=
  [x / 16777216 % 256, x / 65536 % 256, x / 256 % 256, x % 256]

/-- The 32-byte SHA-256 digest of a byte list. -/
def sha256bytes (m : List Nat) : List Nat :=
  let fin := (toBlocks (shaPad m)).foldl compressBlock shaInit
  wordBytes fin.a ++ wordBytes fin.b ++ wordBytes fin.c ++ wordBytes fin.d ++
  wordBytes fin.e ++ wordBytes fin.f ++ wordBytes fin.g ++ wordBytes fin.h

/-- Lowercase hex digit. -/
def hexDigit (n : Nat) : Char := if n < 10 then Char.ofNat (48 + n) else Char.ofNat (87 + n)

def bytesToHex (bs : List Nat) : String :=
  String.mk (concatMap (fun b => [hexDigit (b / 16), hexDigit (b % 16)]) bs)

/-- `hashlib.sha256(bytes).hexdigest()`. -/
def sha256hex (m : List Nat) : String := bytesToHex (sha256bytes m)

/-- SHA-256 hex digest of a string's UTF-8 encoding: the hash used throughout
code_change_tracker.py (`hashlib.sha256(s.encode()).hexdigest()`). -/
def sha256OfString (s : String) : String := sha256hex (utf8Encode s)

theorem sha256_empty_vector :
    sha256OfString "" = "e3b0c44298fc1c149afbf4c8996fb92427ae41e4649b934ca495991b7852b855" := by
  decide

theorem sha256_abc_vector :
    sha256OfString "abc" = "ba7816bf8f01cfea414140de5dae2223b00361a396177a9cb410ff61f20015ad" := by
  decide

/-! ### MerkleNode and tree construction (code_change_tracker.py) -/

/-- `MerkleNode` (code_change_tracker.py lines 8-15): a leaf carries
`hash = file hash` and `file_path`; an internal node built by
`_build_merkle_tree` carries `hash` and both children (the odd-count case
duplicates the last node, so both children are always present). -/
inductive MerkleNode where
  | leaf (hash : String) (file_path : String)
  | node (hash : String) (left : MerkleNode) (right : MerkleNode)
deriving Repr, DecidableEq

/-- The `hash` field of a node. -/
def MerkleNode.hashOf : MerkleNode → String
  | .leaf h _ => h
  | .node h _ _ => h

/-- `_hash_pair` (lines 65-69): `sha256((left_hash + right_hash).encode()).hexdigest()`. -/
def _hash_pair (left_hash right_hash : String) : String :=
  sha256OfString (left_hash ++ right_hash)

/-- Lexicographic order used by Python's `sorted(file_hashes.items())` on
`(path, hash)` tuples. -/
def pairLe (a b : String × String) : Prop :=
  a.1 < b.1 ∨ (a.1 = b.1 ∧ a.2 ≤ b.2)

instance : DecidableRel pairLe := fun a b => by
  unfold pairLe
  infer_instance

instance : IsTotal (String × String) pairLe where
  total a b := by
    unfold pairLe
    rcases lt_trichotomy a.1 b.1 with h | h | h
    · exact Or.inl (Or.inl h)
    · rcases le_total a.2 b.2 with h2 | h2
      · exact Or.inl (Or.inr ⟨h, h2⟩)
      · exact Or.inr (Or.inr ⟨h.symm, h2⟩)
    · exact Or.inr (Or.inl h)

instance : IsTrans (String × String) pairLe where
  trans a b c hab hbc := by
    unfold pairLe at *
    rcases hab with h1 | ⟨h1, h1'⟩
    · rcases hbc with h2 | ⟨h2, _⟩
      · exact Or.inl (h1.trans h2)
      · exact Or.inl (h2 ▸ h1)
    · rcases hbc with h2 | ⟨h2, h2'⟩
      · exact Or.inl (h1 ▸ h2)
      · exact Or.inr ⟨h1.trans h2, h1'.trans h2'⟩

instance : IsAntisymm (String × String) pairLe where
  antisymm a b hab hba := by
    unfold pairLe at *
    rcases hab with h1 | ⟨h1, h1'⟩
    · rcases hba with h2 | ⟨h2, _⟩
      · exact absurd (h1.trans h2) (lt_irrefl _)
      · exact absurd (h2 ▸ h1) (lt_irrefl _)
    · rcases hba with h2 | ⟨h2, h2'⟩
      · exact absurd (h1 ▸ h2) (lt_irrefl _)
      · exact Prod.ext h1 (le_antisymm h1' h2')

/-- `sorted(file_hashes.items())` (line 78). -/
def sortPairs (l : List (String × String)) : List (String × String) :=
  l.insertionSort pairLe

/-- One pass of the level-folding loop (lines 96-117): pair adjacent nodes,
duplicating the last node of an odd-length level. -/
def pairUp : List MerkleNode → List MerkleNode
  | [] => []
  | [a] => [.node (_hash_pair a.hashOf a.hashOf) a a]
  | a :: b :: rest => .node (_hash_pair a.hashOf b.hashOf) a b :: pairUp rest

theorem pairUp_length : ∀ l : List MerkleNode, (pairUp l).length = (l.length + 1) / 2
  | [] => rfl
  | [_] => by simp only [pairUp, List.length_cons, List.length_nil]
  | _ :: _ :: rest => by
      simp only [pairUp, List.length_cons, pairUp_length rest]
      omega

/-- The `while len(current_level) > 1` loop, with a structural fuel counter
(`fuel = initial length` always suffices since each pass shrinks the level). -/
def buildLevelsFuel : Nat → List MerkleNode → Option MerkleNode
  | _, [] => none
  | _, [a] => some a
  | 0, _ :: _ :: _ => none
  | fuel + 1, a :: b :: rest => buildLevelsFuel fuel (pairUp (a :: b :: rest))

def buildLevels (l : List MerkleNode) : Option MerkleNode := buildLevelsFuel l.length l

/-- `_build_merkle_tree` (lines 71-119): `None` on an empty mapping, otherwise
sort the items by path, make leaves, and fold levels pairwise; a single leaf is
returned as the root directly. -/
def _build_merkle_tree (file_hashes : List (String × String)) : Option MerkleNode :=
  if file_hashes = [] then none
  else buildLevels ((sortPairs file_hashes).map (fun e => MerkleNode.leaf e.2 e.1))

/-- All `(file_path, hash)` pairs at leaves, in the traversal order of
`_extract_file_hashes_from_tree` (node, then left, then right). -/
def leavesList : MerkleNode → List (String × String)
  | .leaf h p => [(p, h)]
  | .node _ l r => leavesList l ++ leavesList r

/-- The `traverse` closure of `_extract_file_hashes_from_tree` (lines 261-267)
threading the `file_hashes` dict: a leaf is recorded only when
`node.is_leaf and node.file_path` is truthy, i.e. its path is nonempty. -/
def extractGo : MerkleNode → List (String × String) → List (String × String)
  | .leaf h p, d => if p = "" then d else dictInsert d p h
  | .node _ l r, d => extractGo r (extractGo l d)

/-- `_extract_file_hashes_from_tree` (lines 255-271). -/
def _extract_file_hashes_from_tree (root : MerkleNode) : List (String × String) :=
  extractGo root []

/-- The same applied to an optional root (`if root: traverse(root)` is a no-op
for `None`, returning the empty dict). -/
def extractOpt : Option MerkleNode → List (String × String)
  | none => []
  | some root => _extract_file_hashes_from_tree root

/-! ### Merkle leaf round-trip and determinism lemmas -/

/-- All leaf pairs of all trees of one level. -/
def levelLeaves (L : List MerkleNode) : List (String × String) :=
  concatMap leavesList L

theorem mem_levelLeaves_pairUp (x : String × String) :
    ∀ L : List MerkleNode, x ∈ levelLeaves (pairUp L) ↔ x ∈ levelLeaves L
  | [] => Iff.rfl
  | [a] => by
      simp [pairUp, levelLeaves, concatMap, leavesList]
  | a :: b :: rest => by
      simp only [pairUp, levelLeaves, concatMap, leavesList, List.mem_append,
        List.append_assoc]
      rw [show (x ∈ concatMap leavesList (pairUp rest)) ↔ (x ∈ concatMap leavesList rest) from
        mem_levelLeaves_pairUp x rest]

theorem buildLevelsFuel_mem : ∀ (fuel : Nat) (L : List MerkleNode) (root : MerkleNode),
    L.length ≤ fuel → buildLevelsFuel fuel L = some root →
    ∀ x, x ∈ leavesList root ↔ x ∈ levelLeaves L := by
  intro fuel
  induction fuel with
  | zero =>
      intro L root hlen hb x
      match L, hlen, hb with
      | [], _, hb => exact absurd hb (by simp [buildLevelsFuel])
      | [a], hlen, _ => exact absurd hlen (by simp)
      | _ :: _ :: _, hlen, _ => exact absurd hlen (by simp)
  | succ f ih =>
      intro L root hlen hb x
      match L, hlen, hb with
      | [], _, hb => exact absurd hb (by simp [buildLevelsFuel])
      | [a], _, hb =>
          have : a = root := by
            simpa [buildLevelsFuel] using hb
          subst this
          simp [levelLeaves, concatMap]
      | a :: b :: rest, hlen, hb =>
          have hlen' : (pairUp (a :: b :: rest)).length ≤ f := by
            rw [pairUp_length]
            simp only [List.length_cons] at hlen ⊢
            omega
          have hb' : buildLevelsFuel f (pairUp (a :: b :: rest)) = some root := hb
          exact (ih _ root hlen' hb' x).trans (mem_levelLeaves_pairUp x _)

theorem buildLevelsFuel_isSome : ∀ (fuel : Nat) (L : List MerkleNode),
    L ≠ [] → L.length ≤ fuel → (buildLevelsFuel fuel L).isSome = true := by
  intro fuel
  induction fuel with
  | zero =>
      intro L hne hlen
      match L, hne, hlen with
      | [], hne, _ => exact absurd rfl hne
      | _ :: _, _, hlen => exact absurd hlen (by simp)
  | succ f ih =>
      intro L hne hlen
      match L, hne, hlen with
      | [], hne, _ => exact absurd rfl hne
      | [a], _, _ => rfl
      | a :: b :: rest, _, hlen =>
          have hne' : pairUp (a :: b :: rest) ≠ [] := by
            intro hc
            have := pairUp_length (a :: b :: rest)
            rw [hc] at this
            simp only [List.length_nil, List.length_cons] at this
            omega
          have hlen' : (pairUp (a :: b :: rest)).length ≤ f := by
            rw [pairUp_length]
            simp only [List.length_cons] at hlen ⊢
            omega
          exact ih _ hne' hlen'

theorem levelLeaves_of_leaves : ∀ S : List (String × String),
    levelLeaves (S.map (fun e => MerkleNode.leaf e.2 e.1)) = S := by
  intro S
  induction S with
  | nil => rfl
  | cons e rest ih =>
      obtain ⟨p, h⟩ := e
      simp only [List.map_cons, levelLeaves, concatMap, leavesList] at *
      rw [ih]
      rfl

theorem extractGo_spec (X : List (String × String)) :
    ∀ (n : MerkleNode) (d : List (String × String)),
      (∀ p h, (p, h) ∈ leavesList n → dlook p X = some h) →
      (∀ p h, (p, h) ∈ d → dlook p X = some h) →
      (∀ p h, (p, h) ∈ extractGo n d → dlook p X = some h)
      ∧ (∀ p, p ∈ dkeys d → p ∈ dkeys (extractGo n d))
      ∧ (∀ p h, (p, h) ∈ leavesList n → p ≠ "" → p ∈ dkeys (extractGo n d)) := by
  intro n
  induction n with
  | leaf hsh p =>
      intro d hn hd
      by_cases hp : p = ""
      · simp only [extractGo, if_pos hp]
        refine ⟨hd, fun q hq => hq, ?_⟩
        intro q h hq hqne
        simp only [leavesList, List.mem_singleton, Prod.mk.injEq] at hq
        exact absurd (hq.1.trans hp) hqne
      · simp only [extractGo, if_neg hp]
        refine ⟨?_, ?_, ?_⟩
        · intro q w hq
          rcases mem_dictInsert_iff.mp hq with h1 | ⟨h2, _⟩
          · cases h1
            exact hn p hsh (List.mem_singleton.mpr rfl)
          · exact hd q w h2
        · intro q hq
          exact dkeys_dictInsert.mpr (Or.inr hq)
        · intro q w hq _
          simp only [leavesList, List.mem_singleton, Prod.mk.injEq] at hq
          exact dkeys_dictInsert.mpr (Or.inl hq.1)
  | node hsh l r ihl ihr =>
      intro d hn hd
      have hnl : ∀ p h, (p, h) ∈ leavesList l → dlook p X = some h := by
        intro p h hm
        exact hn p h (by simp only [leavesList, List.mem_append]; exact Or.inl hm)
      have hnr : ∀ p h, (p, h) ∈ leavesList r → dlook p X = some h := by
        intro p h hm
        exact hn p h (by simp only [leavesList, List.mem_append]; exact Or.inr hm)
      obtain ⟨A1, A2, A3⟩ := ihl d hnl hd
      obtain ⟨B1, B2, B3⟩ := ihr (extractGo l d) hnr A1
      refine ⟨B1, fun q hq => B2 q (A2 q hq), ?_⟩
      intro q w hq hqne
      simp only [leavesList, List.mem_append] at hq
      rcases hq with h1 | h2
      · exact B2 q (A3 q w h1 hqne)
      · exact B3 q w h2 hqne

/-- Leaf round-trip: extracting the leaf dict from the tree built over a
mapping with distinct, nonempty paths recovers exactly that mapping. Shared by
the proofs for claims about `_build_merkle_tree` / `_extract_file_hashes_from_tree`
and about `update_file_hashes` / `remove_file_hash`. -/
theorem extract_build_dlook (X : List (String × String))
    (hnd : (dkeys X).Nodup) (hne : "" ∉ dkeys X) :
    ∀ k, dlook k (extractOpt (_build_merkle_tree X)) = dlook k X := by
  intro k
  by_cases hX : X = []
  · subst hX
    rfl
  · unfold _build_merkle_tree
    rw [if_neg hX]
    have hLne : (sortPairs X).map (fun e => MerkleNode.leaf e.2 e.1) ≠ [] := by
      intro hc
      rw [List.map_eq_nil_iff] at hc
      exact hX ((List.perm_insertionSort pairLe X).symm.trans (hc ▸ List.Perm.refl _)).eq_nil
    have hsome := buildLevelsFuel_isSome _ _ hLne le_rfl
    obtain ⟨root, hroot⟩ := Option.isSome_iff_exists.mp hsome
    have hroot' : buildLevels ((sortPairs X).map (fun e => MerkleNode.leaf e.2 e.1)) = some root := hroot
    rw [hroot']
    have hmem : ∀ x, x ∈ leavesList root ↔ x ∈ X := by
      intro x
      rw [buildLevelsFuel_mem _ _ root le_rfl hroot x, levelLeaves_of_leaves]
      exact (List.perm_insertionSort pairLe X).mem_iff
    have hn : ∀ p h, (p, h) ∈ leavesList root → dlook p X = some h := by
      intro p h hm
      exact dlook_of_mem_nodup hnd ((hmem (p, h)).mp hm)
    obtain ⟨S1, _, S3⟩ := extractGo_spec X root [] hn (by intro p h hc; simp at hc)
    show dlook k (extractGo root []) = dlook k X
    cases hE : dlook k (extractGo root []) with
    | some v => exact (S1 k v (dlook_mem hE)).symm
    | none =>
        cases hXk : dlook k X with
        | none => rfl
        | some v =>
            exfalso
            have hkX : (k, v) ∈ X := dlook_mem hXk
            have hkne : k ≠ "" := by
              intro hc
              exact hne (hc ▸ List.mem_map.mpr ⟨(k, v), hkX, rfl⟩)
            have := S3 k v ((hmem (k, v)).mpr hkX) hkne
            exact (dlook_eq_none_iff.mp hE) this

/-- Determinism of `sorted(...)`: two orderings of the same mapping sort to
the same list. -/
theorem sortPairs_eq_of_perm {X Y : List (String × String)} (h : X.Perm Y) :
    sortPairs X = sortPairs Y :=
  List.eq_of_perm_of_sorted
    ((List.perm_insertionSort pairLe X).trans (h.trans (List.perm_insertionSort pairLe Y).symm))
    (List.sorted_insertionSort pairLe X) (List.sorted_insertionSort pairLe Y)

/-- Determinism of `_build_merkle_tree` over the representation of the input
dict: any reordering of the entries produces the identical tree. -/
theorem _build_merkle_tree_perm {X Y : List (String × String)} (h : X.Perm Y) :
    _build_merkle_tree X = _build_merkle_tree Y := by
  unfold _build_merkle_tree
  by_cases hX : X = []
  · have hY : Y = [] := (hX ▸ h).symm.eq_nil
    rw [if_pos hX, if_pos hY]
  · have hY : Y ≠ [] := fun he => hX (he ▸ h).eq_nil
    rw [if_neg hX, if_neg hY, sortPairs_eq_of_perm h]

/-! ### FileHasher (code_change_tracker.py, compute_file_hash) -/

/-- `compute_file_hash` (lines 177-185). The argument models the outcome of
`file_path.read_text(encoding='utf-8')`: `some content` when the read and
decode succeed, `none` when any exception is raised (caught by the
`except` clause, which prints a warning and returns the empty string). -/
def compute_file_hash (readResult : Option String) : String :=
  match readResult with
  | some content => sha256OfString content
  | none => ""

/-! ### ChangeDetector (code_change_tracker.py, detect_changes) -/

/-- The four change sets returned by `detect_changes`. -/
structure Changes where
  added : List String
  modified : List String
  deleted : List String
  unchanged : List String
deriving Repr, DecidableEq

/-- `detect_changes` (lines 204-253). `current` is the freshly computed
`current_file_hashes` dict; `persisted` is the tree stored in
`merkle_tree.json` (`none` when the file is absent, unreadable, or holds a
null tree). Python's `added`/`deleted`/`common` set operations are order
insensitive; they are rendered as filters, which agree with them on
membership. The second component is the on-disk tree after the call: the
fast path returns before `save_merkle_tree`, the slow path rebuilds and
saves the fresh tree. -/
def detect_changes (current : List (String × String)) (persisted : Option MerkleNode) :
    Changes × Option MerkleNode :=
  if persisted.map MerkleNode.hashOf = (_build_merkle_tree current).map MerkleNode.hashOf then
    ({ added := [], modified := [], deleted := [], unchanged := dkeys current }, persisted)
  else
    ({ added := (dkeys current).filter (fun p => decide (p ∉ dkeys (extractOpt persisted))),
       modified := ((dkeys current).filter
           (fun p => decide (p ∈ dkeys (extractOpt persisted)))).filter
         (fun p => decide (dlook p current ≠ dlook p (extractOpt persisted))),
       deleted := (dkeys (extractOpt persisted)).filter (fun p => decide (p ∉ dkeys current)),
       unchanged := ((dkeys current).filter
           (fun p => decide (p ∈ dkeys (extractOpt persisted)))).filter
         (fun p => decide (dlook p current = dlook p (extractOpt persisted))) },
     _build_merkle_tree current)

/-! ### Hash-map updates (code_change_tracker.py, update_file_hashes / remove_file_hash) -/

/-- The `for rel, h in zip(file_paths, hashes): current_file_hashes[rel] = h`
loop of `update_file_hashes`. -/
def overlayPairs (d : List (String × String)) (upd : List (String × String)) :
    List (String × String) :=
  upd.foldl (fun acc kv => dictInsert acc kv.1 kv.2) d

/-- `update_file_hashes` (lines 327-335): re-scan the disk
(`_collect_file_hashes`, modelled by the `diskScan` argument), overwrite the
given entries, rebuild the Merkle tree and save it. The returned tree is the
newly persisted one. -/
def update_file_hashes (diskScan : List (String × String))
    (file_paths hashes : List String) : Option MerkleNode :=
  _build_merkle_tree (overlayPairs diskScan (file_paths.zip hashes))

/-- The `for rel in file_paths: current_file_hashes.pop(rel, None)` loop of
`remove_file_hash`. -/
def removeAll (d : List (String × String)) (ks : List String) : List (String × String) :=
  ks.foldl dictRemove d

/-- `remove_file_hash` (lines 337-344): re-scan the disk, drop the given
entries, rebuild and save. -/
def remove_file_hash (diskScan : List (String × String)) (file_paths : List String) :
    Option MerkleNode :=
  _build_merkle_tree (removeAll diskScan file_paths)

/-! ### BlockExtractor (ast_parser.py) -/

/-- A code block dict as produced by `_parse_python_node` / `_parse_other_node`
(keys `id`, `type`, `name`, `code`, `file_path`, `line_number`,
`end_line_number`, `signature`). -/
structure Block where
  id : String
  type : String
  name : String
  code : String
  file_path : String
  line_number : Nat
  end_line_number : Option Nat
  signature : String
deriving Repr, DecidableEq

/-- The three `ast` node kinds extracted on the native Python path
(`_extract_python`, lines 56-61). -/
inductive PyKind where
  | functionDef
  | asyncFunctionDef
  | classDef
deriving Repr, DecidableEq

/-- The attributes of a Python `ast` node that `_parse_python_node` reads.
`name`, `lineno`, `endLineno` model `getattr` with its defaults; `ast`
line numbers are 1-based and column offsets 0-based. `sourceSegment` models
`ast.get_source_segment(content, node)` (`None` → `""` via `or ""`). -/
structure PyNode where
  kind : PyKind
  name : Option String
  lineno : Nat
  colOffset : Nat
  argNames : List String
  endLineno : Option Nat
  sourceSegment : Option String
deriving Repr, DecidableEq

/-- `_get_signature` (lines 92-96): `name(arg1, arg2, ...)` for functions,
plain `name` (default `""`) for classes. -/
def _get_signature (n : PyNode) : String :=
  match n.kind with
  | .functionDef => (n.name.getD "<anon>") ++ "(" ++ String.intercalate ", " n.argNames ++ ")"
  | .asyncFunctionDef => (n.name.getD "<anon>") ++ "(" ++ String.intercalate ", " n.argNames ++ ")"
  | .classDef => n.name.getD ""

/-- `_parse_python_node` (lines 63-89). `file_path_posix` is
`file_path.as_posix()` of the path the extractor was called with, which in
`_process_files` (code_indexer.py line 101) is `Path(project_root) / rel_path`,
i.e. an absolute path; `str(file_path)` equals it on a POSIX system. -/
def _parse_python_node (file_path_posix : String) (n : PyNode) : Block :=
  { id := file_path_posix ++ ":" ++ n.name.getD "<anon>" ++ ":" ++ toString n.lineno
      ++ ":" ++ toString n.colOffset,
    type := match n.kind with
      | .functionDef => "function"
      | .asyncFunctionDef => "async_function"
      | .classDef => "class",
    name := n.name.getD "<anon>",
    code := n.sourceSegment.getD "",
    file_path := file_path_posix,
    line_number := n.lineno,
    end_line_number := n.endLineno,
    signature := _get_signature n }

/-- The attributes of a tree-sitter node that `_parse_other_node` reads:
`start_point`/`end_point` are 0-based (row, column) pairs, `children` is the
list of `(child.type, source text of the child span)` pairs, and `codeText`
is `content[node.start_byte:node.end_byte]`. -/
structure TSNode where
  kind : String
  startRow : Nat
  startCol : Nat
  endRow : Nat
  children : List (String × String)
  codeText : String
deriving Repr, DecidableEq

/-- `_extract_name` (lines 161-167): the text of the first child of type
`identifier`, or `None`. -/
def _extract_name (n : TSNode) : Option String :=
  (n.children.find? (fun c => c.1 == "identifier")).map Prod.snd

/-- `_parse_other_node` (lines 141-159): 1-based start line is
`start_point[0] + 1`, the column is the raw 0-based `start_point[1]`, the
name falls back to the node kind, and the signature equals the name. -/
def _parse_other_node (file_path_str : String) (n : TSNode) : Block :=
  let name := (_extract_name n).getD n.kind
  { id := file_path_str ++ ":" ++ name ++ ":" ++ toString (n.startRow + 1)
      ++ ":" ++ toString n.startCol,
    type := n.kind,
    name := name,
    code := n.codeText,
    file_path := file_path_str,
    line_number := n.startRow + 1,
    end_line_number := some (n.endRow + 1),
    signature := name }

/-! ### IndexPipeline path handling and deletion phase (code_indexer.py) -/

/-- `str(Path(project_root_str) / rel_path)` for a project root given as an
absolute POSIX path without a trailing slash and a relative `rel_path`
(the form produced by `file_path.relative_to(project_path)`). -/
def pathJoin (root rel : String) : String := root ++ "/" ++ rel

/-- The slice of a stored vector record relevant to deletion: its key and its
`file_path` metadata value (vector_db.py lines 55-63: metadata `file_path` is
`b.get('file_path')`, the extractor's `str(file_path)`). -/
structure VRecord where
  id : String
  file_path : String
deriving Repr, DecidableEq

/-- The record upserted for a block (id and `file_path` metadata). -/
def recordOf (b : Block) : VRecord := { id := b.id, file_path := b.file_path }

/-- The chroma call `collection.delete(where={"file_path": file_path})`
issued by `delete_blocks_by_file` (vector_db.py line 83): an equality filter
on the `file_path` metadata. -/
def chromaDeleteWhere (coll : List VRecord) (fp : String) : List VRecord :=
  coll.filter (fun r => ¬ r.file_path = fp)

/-- The deleted-files loop of `run_incremental_indexing` (code_indexer.py
lines 43-47): `delete_blocks_by_file(collection_name, file_path)` is called
with each RELATIVE path from `changes['deleted']` as the filter value. -/
def deleteDeletedPhase (coll : List VRecord) (deleted : List String) : List VRecord :=
  deleted.foldl chromaDeleteWhere coll

/-! ### Chunker (code_indexer.py, _process_files and _prepare_text_for_embedding) -/

/-- A Python value as returned by `os.environ.get("MAX_LENGTH", 8000)`:
a string when the variable is set, the integer default when it is not. -/
inductive PyVal where
  | pyInt (n : Nat)
  | pyStr (s : String)
deriving Repr, DecidableEq

/-- `os.environ.get(name, default)` with an integer default. -/
def envGet (env : Option String) (default : Nat) : PyVal :=
  match env with
  | some s => .pyStr s
  | none => .pyInt default

/-- Python's `<=` between an `int` and the given value: comparing an `int`
with a `str` raises `TypeError`. -/
def pyLeIntVal (a : Nat) (b : PyVal) : Except String Bool :=
  match b with
  | .pyInt n => .ok (decide (a ≤ n))
  | .pyStr _ => .error "TypeError: not supported between instances of int and str"

/-- `_prepare_text_for_embedding` (code_indexer.py lines 180-189). -/
def _prepare_text_for_embedding (b : Block) : String :=
  "Type: " ++ b.type ++ "\n" ++ "Name: " ++ b.name ++ "\n" ++
  "Signature: " ++ b.signature ++ "\n" ++ "Code: " ++ b.code

/-- The per-block chunking step of `_process_files` (code_indexer.py lines
125-152). `env` is `os.environ.get("MAX_LENGTH")`; the default is the
integer `8000` with no `int()` conversion of a set value. `splitter` models
the external `RecursiveCharacterTextSplitter.split_text`. Each produced pair
is (block dict, text to embed); an oversize block is replaced by `_chunk_i`
copies (1-based `i`) with the chunk as `code`, `" (part i)"` appended to the
signature, and `"_chunk_i"` appended to the id and name. -/
def chunkOne (env : Option String) (splitter : String → List String) (b : Block) :
    Except String (List (Block × String)) :=
  let text := _prepare_text_for_embedding b
  match pyLeIntVal text.length (envGet env 8000) with
  | .error e => .error e
  | .ok true => .ok [(b, text)]
  | .ok false =>
      .ok ((splitter text).enum.map (fun ic =>
        ({ b with
            name := b.name ++ "_chunk_" ++ toString (ic.1 + 1),
            code := ic.2,
            signature := b.signature ++ " (part " ++ toString (ic.1 + 1) ++ ")",
            id := b.id ++ "_chunk_" ++ toString (ic.1 + 1) }, ic.2)))

/-! ### VectorStoreAdapter (vector_db.py) -/

/-- `get_block_by_id` (lines 88-93): any exception from the underlying store
is caught and the empty dict is returned (modelled as `none`). -/
def get_block_by_id (underlying : Except String (List String)) : Option (List String) :=
  match underlying with
  | .ok r => some r
  | .error _ => none

/-- `query_by_embedding` (lines 95-100): same catch-all-and-return-empty shape. -/
def query_by_embedding (underlying : Except String (List String)) : Option (List String) :=
  match underlying with
  | .ok r => some r
  | .error _ => none

/-- `delete_blocks_by_file` (lines 80-86): the whole body sits in
`try: ... except Exception: pass`, so the call always returns normally, no
matter how the underlying `get_collection`/`delete` call ends. -/
def delete_blocks_by_file (underlying : Except String Unit) : Except String Unit :=
  match underlying with
  | .ok _ => .ok ()
  | .error _ => .ok ()

/-- `upsert_blocks` (lines 49-78): a failed `collection.upsert` falls back to
`collection.add`, whose failure propagates to the caller (the trailing
`persist` block swallows its own errors and is omitted). -/
def upsert_blocks (upsertAttempt addAttempt : Except String Unit) : Except String Unit :=
  match upsertAttempt with
  | .ok _ => .ok ()
  | .error _ => addAttempt

/-- The tail of `_process_files` (code_indexer.py lines 169-178): upsert into
the vector store, then `update_file_hashes` rebuilds and saves the Merkle
tree. An exception from the store propagates out of `_process_files` before
`update_file_hashes` runs, so the persisted tree stays what it was. The
result is (outcome, on-disk tree after the call). -/
def processFilesTail (upsertAttempt addAttempt : Except String Unit)
    (diskScan : List (String × String)) (newHashes : List (String × String))
    (persisted : Option MerkleNode) : Except String Unit × Option MerkleNode :=
  match upsert_blocks upsertAttempt addAttempt with
  | .error e => (.error e, persisted)
  | .ok _ => (.ok (), _build_merkle_tree (overlayPairs diskScan newHashes))

/-! ### BackgroundScheduler (fast_mcp_server.py, BackgroundIndexer) -/

/-- The scheduler state visible in `BackgroundIndexer`: the `running` flag,
how many periodic worker threads have been spawned, how many initial-full-index
threads have been spawned but not yet entered `full_index`, and how many
threads are currently inside each of the two pipeline entry points. -/
structure SchedState where
  running : Bool
  periodicThreads : Nat
  initSpawned : Nat
  initRunning : Nat
  incRunning : Nat
deriving Repr, DecidableEq

/-- The state of a fresh `BackgroundIndexer` (`__init__`, lines 32-36). -/
def initialSched : SchedState :=
  { running := false, periodicThreads := 0, initSpawned := 0, initRunning := 0, incRunning := 0 }

/-- Interleaving semantics of `BackgroundIndexer` (fast_mcp_server.py lines
38-77). `start_auto_indexing` always spawns an initial-full-index thread and
spawns the periodic thread only when `running` is false (setting it true);
an initial thread enters and leaves `full_index`; a periodic thread begins an
iteration of `run_incremental_indexing` (one at a time per thread) and ends
it. No transition is guarded by the activity of the other entry point: the
code takes no lock around either `full_index` or `run_incremental_indexing`.
`stop()` is not modelled (none of the claims involve it). -/
inductive SchedStep : SchedState → SchedState → Prop where
  | startAuto_first (s : SchedState) (h : s.running = false) :
      SchedStep s { s with running := true, periodicThreads := s.periodicThreads + 1,
                           initSpawned := s.initSpawned + 1 }
  | startAuto_again (s : SchedState) (h : s.running = true) :
      SchedStep s { s with initSpawned := s.initSpawned + 1 }
  | initEnter (s : SchedState) (h : 1 ≤ s.initSpawned) :
      SchedStep s { s with initSpawned := s.initSpawned - 1, initRunning := s.initRunning + 1 }
  | initExit (s : SchedState) (h : 1 ≤ s.initRunning) :
      SchedStep s { s with initRunning := s.initRunning - 1 }
  | incEnter (s : SchedState) (h : s.incRunning < s.periodicThreads) :
      SchedStep s { s with incRunning := s.incRunning + 1 }
  | incExit (s : SchedState) (h : 1 ≤ s.incRunning) :
      SchedStep s { s with incRunning := s.incRunning - 1 }

/-- Reachability of scheduler states by interleaved events. -/
def SchedReachable : SchedState → SchedState → Prop :=
  Relation.ReflTransGen SchedStep

/-- C9 counterexample: `BackgroundIndexer` takes no lock around `full_index`
and `run_incremental_indexing`, so a state in which one thread is inside
`full_index` while the periodic thread is simultaneously inside
`run_incremental_indexing` for the same (single) project is reachable:
`start_auto_indexing` spawns both workers, the init thread enters
`full_index`, and the periodic thread starts an incremental iteration —
refuting the claimed mutual exclusion of the two entry points. -/
theorem scheduler_not_mutually_exclusive :
    SchedReachable initialSched
      { running := true, periodicThreads := 1, initSpawned := 0,
        initRunning := 1, incRunning := 1 } := by
  have h1 : SchedStep initialSched
      { running := true, periodicThreads := 1, initSpawned := 1,
        initRunning := 0, incRunning := 0 } := by
    have := SchedStep.startAuto_first initialSched rfl
    simpa [initialSched] using this
  have h2 : SchedStep
      { running := true, periodicThreads := 1, initSpawned := 1,
        initRunning := 0, incRunning := 0 }
      { running := true, periodicThreads := 1, initSpawned := 0,
        initRunning := 1, incRunning := 0 } := by
    have := SchedStep.initEnter
      { running := true, periodicThreads := 1, initSpawned := 1,
        initRunning := 0, incRunning := 0 } (by decide)
    simpa using this
  have h3 : SchedStep
      { running := true, periodicThreads := 1, initSpawned := 0,
        initRunning := 1, incRunning := 0 }
      { running := true, periodicThreads := 1, initSpawned := 0,
        initRunning := 1, incRunning := 1 } := by
    have := SchedStep.incEnter
      { running := true, periodicThreads := 1, initSpawned := 0,
        initRunning := 1, incRunning := 0 } (by decide)
    simpa using this
  exact Relation.ReflTransGen.head h1 (Relation.ReflTransGen.head h2
    (Relation.ReflTransGen.single h3))

/-! ### Digest length facts -/

theorem concatMap_length_two {α β : Type} (f : α → List β) (hf : ∀ a, (f a).length = 2) :
    ∀ l : List α, (concatMap f l).length = 2 * l.length := by
  intro l
  induction l with
  | nil => rfl
  | cons a rest ih =>
      simp only [concatMap, List.length_append, List.length_cons, hf a, ih]
      omega

theorem sha256bytes_length (m : List Nat) : (sha256bytes m).length = 32 := by
  unfold sha256bytes wordBytes
  simp only [List.length_append, List.length_cons, List.length_nil]

theorem sha256OfString_length (s : String) : (sha256OfString s).length = 64 := by
  unfold sha256OfString sha256hex bytesToHex
  show (concatMap (fun b => [hexDigit (b / 16), hexDigit (b % 16)])
    (sha256bytes (utf8Encode s))).length = 64
  rw [concatMap_length_two (fun b => [hexDigit (b / 16), hexDigit (b % 16)])
    (fun a => rfl) (sha256bytes (utf8Encode s)), sha256bytes_length]

/-! ### Claim theorems -/

/-- C8: `compute_file_hash` never raises to its caller: it returns the
SHA-256 hex digest (64 hex characters) of the file's decoded UTF-8 text when
the file can be read and decoded, and returns the empty string (after a
printed warning) on any decode or I/O failure. -/
theorem compute_file_hash_spec (r : Option String) :
    (∀ c, r = some c →
      compute_file_hash r = sha256OfString c ∧ (compute_file_hash r).length = 64)
    ∧ (r = none → compute_file_hash r = "") := by
  constructor
  · intro c hc
    subst hc
    exact ⟨rfl, sha256OfString_length c⟩
  · intro hn
    subst hn
    rfl

/-- Witness for C8 at the concrete read result `some "abc"` (the digest value
itself is checked against the published SHA-256 vector in
`sha256_abc_vector`). -/
theorem compute_file_hash_spec_witness :
    compute_file_hash (some "abc") = sha256OfString "abc"
    ∧ (compute_file_hash (some "abc")).length = 64 :=
  (compute_file_hash_spec (some "abc")).1 "abc" rfl

/-- C3: for every project state, the four lists returned by `detect_changes`
classify the scanned paths: added, modified and unchanged together are exactly
the current file set; deleted is disjoint from the current file set; and the
four sets are pairwise disjoint. -/
theorem detect_changes_partition (current : List (String × String))
    (persisted : Option MerkleNode) (p : String) :
    ((p ∈ (detect_changes current persisted).1.added ∨
      p ∈ (detect_changes current persisted).1.modified ∨
      p ∈ (detect_changes current persisted).1.unchanged) ↔ p ∈ dkeys current)
    ∧ (p ∈ (detect_changes current persisted).1.deleted → p ∉ dkeys current)
    ∧ ¬ (p ∈ (detect_changes current persisted).1.added ∧
         p ∈ (detect_changes current persisted).1.modified)
    ∧ ¬ (p ∈ (detect_changes current persisted).1.added ∧
         p ∈ (detect_changes current persisted).1.deleted)
    ∧ ¬ (p ∈ (detect_changes current persisted).1.added ∧
         p ∈ (detect_changes current persisted).1.unchanged)
    ∧ ¬ (p ∈ (detect_changes current persisted).1.modified ∧
         p ∈ (detect_changes current persisted).1.deleted)
    ∧ ¬ (p ∈ (detect_changes current persisted).1.modified ∧
         p ∈ (detect_changes current persisted).1.unchanged)
    ∧ ¬ (p ∈ (detect_changes current persisted).1.deleted ∧
         p ∈ (detect_changes current persisted).1.unchanged) := by
  unfold detect_changes
  split
  · simp
  · simp only [List.mem_filter, decide_eq_true_eq, List.not_mem_nil]
    constructor
    · constructor
      · intro h
        rcases h with h | h | h
        · exact h.1
        · exact h.1.1
        · exact h.1.1
      · intro h
        by_cases ho : p ∈ dkeys (extractOpt persisted)
        · by_cases hl : dlook p current = dlook p (extractOpt persisted)
          · exact Or.inr (Or.inr ⟨⟨h, ho⟩, hl⟩)
          · exact Or.inr (Or.inl ⟨⟨h, ho⟩, hl⟩)
        · exact Or.inl ⟨h, ho⟩
    · refine ⟨fun h => h.2, ?_, ?_, ?_, ?_, ?_, ?_⟩
      · intro h
        exact h.1.2 h.2.1.2
      · intro h
        exact h.2.2 h.1.1
      · intro h
        exact h.1.2 h.2.1.2
      · intro h
        exact h.2.2 h.1.1.1
      · intro h
        exact h.1.2 h.2.2
      · intro h
        exact h.1.2 h.2.1.1

/-- Witness for C3 at a concrete one-file project with no prior tree. -/
theorem detect_changes_partition_witness :
    (("a.py" ∈ (detect_changes [("a.py", "h1")] none).1.added ∨
      "a.py" ∈ (detect_changes [("a.py", "h1")] none).1.modified ∨
      "a.py" ∈ (detect_changes [("a.py", "h1")] none).1.unchanged) ↔
        "a.py" ∈ dkeys [("a.py", "h1")])
    ∧ ("a.py" ∈ (detect_changes [("a.py", "h1")] none).1.deleted →
        "a.py" ∉ dkeys [("a.py", "h1")])
    ∧ ¬ ("a.py" ∈ (detect_changes [("a.py", "h1")] none).1.added ∧
         "a.py" ∈ (detect_changes [("a.py", "h1")] none).1.modified)
    ∧ ¬ ("a.py" ∈ (detect_changes [("a.py", "h1")] none).1.added ∧
         "a.py" ∈ (detect_changes [("a.py", "h1")] none).1.deleted)
    ∧ ¬ ("a.py" ∈ (detect_changes [("a.py", "h1")] none).1.added ∧
         "a.py" ∈ (detect_changes [("a.py", "h1")] none).1.unchanged)
    ∧ ¬ ("a.py" ∈ (detect_changes [("a.py", "h1")] none).1.modified ∧
         "a.py" ∈ (detect_changes [("a.py", "h1")] none).1.deleted)
    ∧ ¬ ("a.py" ∈ (detect_changes [("a.py", "h1")] none).1.modified ∧
         "a.py" ∈ (detect_changes [("a.py", "h1")] none).1.unchanged)
    ∧ ¬ ("a.py" ∈ (detect_changes [("a.py", "h1")] none).1.deleted ∧
         "a.py" ∈ (detect_changes [("a.py", "h1")] none).1.unchanged) :=
  detect_changes_partition [("a.py", "h1")] none "a.py"

/-- C5: whenever a persisted tree is present and its root hash equals the
root hash of the tree freshly built over the current scan (both non-null,
as both trees exist), `detect_changes` returns every current file as
unchanged, the other three sets empty, and leaves the on-disk tree exactly
as it was (the fast path returns before `save_merkle_tree`). -/
theorem detect_changes_fast_path (current : List (String × String)) (t nt : MerkleNode)
    (hbuild : _build_merkle_tree current = some nt)
    (hhash : t.hashOf = nt.hashOf) :
    detect_changes current (some t) =
      ({ added := [], modified := [], deleted := [], unchanged := dkeys current }, some t) := by
  unfold detect_changes
  rw [hbuild]
  simp [hhash]

/-- Witness for C5: a one-file project whose persisted tree is exactly the
single leaf the fresh build produces. -/
theorem detect_changes_fast_path_witness :
    detect_changes [("a.py", "h")] (some (MerkleNode.leaf "h" "a.py")) =
      ({ added := [], modified := [], deleted := [],
         unchanged := dkeys [("a.py", "h")] }, some (MerkleNode.leaf "h" "a.py")) :=
  detect_changes_fast_path [("a.py", "h")] (MerkleNode.leaf "h" "a.py")
    (MerkleNode.leaf "h" "a.py") (by decide) rfl

/-- C4 counterexample: the literal claim quantifies over EVERY path→hash
mapping, but the `traverse` closure of `_extract_file_hashes_from_tree`
records a leaf only when `node.file_path` is truthy, so the mapping with the
single (empty-string) path `""` builds to a leaf whose extraction is the
empty dict, not the input mapping. -/
theorem merkle_roundtrip_counterexample :
    extractOpt (_build_merkle_tree [("", "h")]) = []
    ∧ dlook "" (extractOpt (_build_merkle_tree [("", "h")])) ≠ dlook "" [("", "h")] := by
  decide

/-- C4 (amended): for every mapping whose paths are distinct and nonempty
(true of every real scan, where paths are relative file paths) — including
the empty mapping and odd-sized mappings where the last node of a level pairs
with itself — extraction after building recovers exactly the mapping; and the
built tree (hence its root hash) is determined by the mapping alone: any
reordering of the entries yields the same root hash. -/
theorem merkle_roundtrip_and_determinism (X Y : List (String × String))
    (hnd : (dkeys X).Nodup) (hne : "" ∉ dkeys X) (hperm : X.Perm Y) :
    (∀ k, dlook k (extractOpt (_build_merkle_tree X)) = dlook k X)
    ∧ (_build_merkle_tree Y).map MerkleNode.hashOf =
        (_build_merkle_tree X).map MerkleNode.hashOf :=
  ⟨extract_build_dlook X hnd hne, by rw [_build_merkle_tree_perm hperm]⟩

/-- Witness for C4 at an odd-sized (three-leaf) mapping and a reordering of
it. -/
theorem merkle_roundtrip_and_determinism_witness :
    (dlook "b.go" (extractOpt (_build_merkle_tree
        [("a.py", "h1"), ("b.go", "h2"), ("c.ts", "h3")])) =
      dlook "b.go" [("a.py", "h1"), ("b.go", "h2"), ("c.ts", "h3")])
    ∧ (_build_merkle_tree [("b.go", "h2"), ("c.ts", "h3"), ("a.py", "h1")]).map
        MerkleNode.hashOf =
      (_build_merkle_tree [("a.py", "h1"), ("b.go", "h2"), ("c.ts", "h3")]).map
        MerkleNode.hashOf
    ∧ dlook "b.go" [("a.py", "h1"), ("b.go", "h2"), ("c.ts", "h3")] = some "h2" :=
  ⟨(merkle_roundtrip_and_determinism
      [("a.py", "h1"), ("b.go", "h2"), ("c.ts", "h3")]
      [("b.go", "h2"), ("c.ts", "h3"), ("a.py", "h1")]
      (by decide) (by decide) (by decide)).1 "b.go",
   (merkle_roundtrip_and_determinism
      [("a.py", "h1"), ("b.go", "h2"), ("c.ts", "h3")]
      [("b.go", "h2"), ("c.ts", "h3"), ("a.py", "h1")]
      (by decide) (by decide) (by decide)).2,
   by decide⟩

/-! ### Lemmas about overlay and removal for C10 -/

theorem overlayPairs_nodup {u : List (String × String)} :
    ∀ d : List (String × String), (dkeys d).Nodup → (dkeys (overlayPairs d u)).Nodup := by
  induction u with
  | nil => intro d h; exact h
  | cons e rest ih =>
      intro d h
      exact ih (dictInsert d e.1 e.2) (dkeys_nodup_dictInsert h)

theorem overlayPairs_keys {u : List (String × String)} :
    ∀ (d : List (String × String)) (p : String),
      p ∈ dkeys (overlayPairs d u) → p ∈ dkeys d ∨ p ∈ dkeys u := by
  induction u with
  | nil => intro d p h; exact Or.inl h
  | cons e rest ih =>
      intro d p h
      rcases ih (dictInsert d e.1 e.2) p h with h1 | h2
      · rcases dkeys_dictInsert.mp h1 with h3 | h4
        · exact Or.inr (by rw [h3]; exact List.mem_map.mpr ⟨e, List.mem_cons_self _ _, rfl⟩)
        · exact Or.inl h4
      · exact Or.inr (List.mem_map.mpr
          (let ⟨x, hx, hxp⟩ := List.mem_map.mp h2; ⟨x, List.mem_cons_of_mem _ hx, hxp⟩))

theorem overlayPairs_dlook_notmem {p : String} :
    ∀ (u : List (String × String)) (d : List (String × String)),
      (∀ e ∈ u, e.1 ≠ p) → dlook p (overlayPairs d u) = dlook p d := by
  intro u
  induction u with
  | nil => intro d _; rfl
  | cons e rest ih =>
      intro d hu
      have h1 : dlook p (overlayPairs (dictInsert d e.1 e.2) rest) =
          dlook p (dictInsert d e.1 e.2) :=
        ih (dictInsert d e.1 e.2) (fun x hx => hu x (List.mem_cons_of_mem _ hx))
      have h2 : dlook p (dictInsert d e.1 e.2) = dlook p d :=
        dlook_dictInsert_ne (fun hc => hu e (List.mem_cons_self _ _) hc.symm)
      exact h1.trans h2

theorem dictRemove_keys {d : List (String × String)} {k p : String} :
    p ∈ dkeys (dictRemove d k) → p ∈ dkeys d := by
  intro h
  obtain ⟨e, he, hep⟩ := List.mem_map.mp h
  exact List.mem_map.mpr ⟨e, List.mem_of_mem_filter he, hep⟩

theorem dictRemove_nodup {d : List (String × String)} {k : String}
    (h : (dkeys d).Nodup) : (dkeys (dictRemove d k)).Nodup :=
  List.Nodup.sublist (List.Sublist.map Prod.fst (List.filter_sublist d)) h

theorem removeAll_nodup {ks : List String} :
    ∀ d : List (String × String), (dkeys d).Nodup → (dkeys (removeAll d ks)).Nodup := by
  induction ks with
  | nil => intro d h; exact h
  | cons k rest ih => intro d h; exact ih (dictRemove d k) (dictRemove_nodup h)

theorem removeAll_keys {ks : List String} :
    ∀ (d : List (String × String)) (q : String),
      q ∈ dkeys (removeAll d ks) → q ∈ dkeys d := by
  induction ks with
  | nil => intro d p h; exact h
  | cons k rest ih => intro d p h; exact dictRemove_keys (ih (dictRemove d k) p h)

/-- C10: `update_file_hashes` and `remove_file_hash` rebuild the persisted
tree from a FRESH disk scan taken at call time (`_collect_file_hashes`),
overridden by (resp. stripped of) the given entries — not from the prior
persisted leaves. Consequently the persisted leaves equal the overlaid
(resp. stripped) fresh scan, and any indexable file present in the scan but
not among the passed paths enters the persisted tree with its scanned hash
even though it was never processed in the pass. -/
theorem update_file_hashes_rescans_disk (diskScan : List (String × String))
    (file_paths hashes : List String)
    (hnd : (dkeys diskScan).Nodup) (hne : "" ∉ dkeys diskScan)
    (hfp : "" ∉ file_paths) :
    (∀ k, dlook k (extractOpt (update_file_hashes diskScan file_paths hashes)) =
        dlook k (overlayPairs diskScan (file_paths.zip hashes)))
    ∧ (∀ p, p ∈ dkeys diskScan → p ∉ file_paths →
        dlook p (extractOpt (update_file_hashes diskScan file_paths hashes)) =
          dlook p diskScan)
    ∧ (∀ k, dlook k (extractOpt (remove_file_hash diskScan file_paths)) =
        dlook k (removeAll diskScan file_paths)) := by
  have hzip : ∀ e ∈ file_paths.zip hashes, e.1 ≠ "" := by
    intro e he hc
    exact hfp (hc ▸ (List.of_mem_zip he).1)
  have hOnd : (dkeys (overlayPairs diskScan (file_paths.zip hashes))).Nodup :=
    overlayPairs_nodup diskScan hnd
  have hOne : "" ∉ dkeys (overlayPairs diskScan (file_paths.zip hashes)) := by
    intro hc
    rcases overlayPairs_keys diskScan "" hc with h1 | h2
    · exact hne h1
    · obtain ⟨e, he, hep⟩ := List.mem_map.mp h2
      exact hzip e he hep
  have hmain : ∀ k, dlook k (extractOpt (update_file_hashes diskScan file_paths hashes)) =
      dlook k (overlayPairs diskScan (file_paths.zip hashes)) :=
    extract_build_dlook _ hOnd hOne
  refine ⟨hmain, ?_, ?_⟩
  · intro p hp hpf
    rw [hmain p]
    exact overlayPairs_dlook_notmem (file_paths.zip hashes) diskScan
      (fun e he hc => hpf (hc ▸ (List.of_mem_zip he).1))
  · have hRnd : (dkeys (removeAll diskScan file_paths)).Nodup :=
      removeAll_nodup diskScan hnd
    have hRne : "" ∉ dkeys (removeAll diskScan file_paths) := by
      intro hc
      exact hne (removeAll_keys diskScan "" hc)
    exact extract_build_dlook _ hRnd hRne

/-- Witness for C10: `new.go` appeared on disk and was never among the
updated paths, yet it enters the persisted tree with its scanned hash `h2`. -/
theorem update_file_hashes_rescans_disk_witness :
    dlook "new.go" (extractOpt (update_file_hashes
        [("a.py", "h1"), ("new.go", "h2")] ["a.py"] ["h1x"])) =
      dlook "new.go" [("a.py", "h1"), ("new.go", "h2")]
    ∧ dlook "new.go" [("a.py", "h1"), ("new.go", "h2")] = some "h2" :=
  ⟨(update_file_hashes_rescans_disk [("a.py", "h1"), ("new.go", "h2")] ["a.py"] ["h1x"]
      (by decide) (by decide) (by decide)).2.1 "new.go" (by decide) (by decide),
   by decide⟩

/-- C7 counterexample: the whole body of `delete_blocks_by_file` is wrapped in
`try: ... except Exception: pass`, so an underlying store failure on the
delete path is swallowed — the adapter returns normally instead of surfacing
the write failure to the pipeline as the claim requires. -/
theorem delete_failure_swallowed_counterexample :
    delete_blocks_by_file (Except.error "store failure") = Except.ok () := rfl

/-- C7 (amended): read operations (`get_block_by_id`, `query_by_embedding`)
catch every underlying failure and return an empty result; a failed
`collection.upsert` falls back to `collection.add`, whose failure IS surfaced
to the pipeline, which aborts the pass before `update_file_hashes` rewrites
the Merkle tree (so the next pass retries); but `delete_blocks_by_file`
failures are caught and swallowed, returning normally, not surfaced. -/
theorem vector_store_error_policy (e e2 : String) (add : Except String Unit)
    (diskScan newHashes : List (String × String)) (persisted : Option MerkleNode) :
    get_block_by_id (Except.error e) = none
    ∧ query_by_embedding (Except.error e) = none
    ∧ upsert_blocks (Except.error e) add = add
    ∧ delete_blocks_by_file (Except.error e) = Except.ok ()
    ∧ processFilesTail (Except.error e) (Except.error e2) diskScan newHashes persisted =
        (Except.error e2, persisted) := by
  refine ⟨rfl, rfl, rfl, rfl, rfl⟩

/-- A small concrete Python function block used for evaluating the pipeline:
`def foo(x)` on line 1 of `a.py` under project root `/proj`. -/
def fooBlock : Block :=
  _parse_python_node (pathJoin "/proj" "a.py")
    { kind := .functionDef, name := some "foo", lineno := 1, colOffset := 0,
      argNames := ["x"], endLineno := some 2,
      sourceSegment := some "def foo(x):\n    return x" }

/-- C6: code-bug evaluation. With `MAX_LENGTH` unset, a block whose prepared
text has length at most the integer default 8000 is embedded as one unsplit
chunk with its original id — but the moment the environment variable is set
(to any string, here "9000"), `os.environ.get("MAX_LENGTH", 8000)` returns a
`str` that is never converted with `int()` (unlike the neighbouring
`CHUNK_SIZE`/`CHUNK_OVERLAP` reads), and `len(text) <= max_length` raises
`TypeError`, aborting the pass instead of comparing lengths. -/
theorem max_length_env_type_error :
    chunkOne none (fun t => [t]) fooBlock =
      Except.ok [(fooBlock, _prepare_text_for_embedding fooBlock)]
    ∧ chunkOne (some "9000") (fun t => [t]) fooBlock =
      Except.error "TypeError: not supported between instances of int and str" := by
  constructor
  · rfl
  · rfl

/-- The Python `ast` node for `def foo(x)` on line 1, column 0. -/
def fooPyNode : PyNode :=
  { kind := .functionDef, name := some "foo", lineno := 1, colOffset := 0,
    argNames := ["x"], endLineno := some 1, sourceSegment := some "def foo(x): pass" }

/-- C2 counterexample: `_process_files` (code_indexer.py line 101) invokes the
extractor with `Path(project_root_str) / rel_path` — the absolute path — so
full-indexing `/proj` gives `a.py`'s `foo` the record id
`/proj/a.py:foo:1:0`, not the project-relative `a.py:foo:1:0` the claim
states. -/
theorem block_id_not_relative_counterexample :
    (_parse_python_node (pathJoin "/proj" "a.py") fooPyNode).id = "/proj/a.py:foo:1:0"
    ∧ "/proj/a.py:foo:1:0" ≠ "a.py:foo:1:0" := by
  constructor
  · rfl
  · decide

/-- C2 (amended): every block id has the form
`<path>:<name>:<start_line>:<start_col>` where the path is the one the
extractor is invoked with — under `_process_files` the absolute POSIX path
`project_root/rel_path` — with a 1-based line and a 0-based column,
identically on the native Python path and the tree-sitter path: a Python
`ast` node on 1-based line `line` and a tree-sitter node on 0-based row
`line - 1` with the same identifier and column produce the same id. In
particular the a.py/b.go scenario yields the ids `/proj/a.py:foo:1:0` and
`/proj/b.go:Bar:1:0` (see the witness). -/
theorem block_id_format (root rel name kind codeText : String) (line col erow : Nat)
    (args : List String) (endL : Option Nat) (seg : Option String)
    (hline : 1 ≤ line) :
    (_parse_python_node (pathJoin root rel)
        { kind := .functionDef, name := some name, lineno := line, colOffset := col,
          argNames := args, endLineno := endL, sourceSegment := seg }).id =
      pathJoin root rel ++ ":" ++ name ++ ":" ++ toString line ++ ":" ++ toString col
    ∧ (_parse_other_node (pathJoin root rel)
        { kind := kind, startRow := line - 1, startCol := col, endRow := erow,
          children := [("identifier", name)], codeText := codeText }).id =
      (_parse_python_node (pathJoin root rel)
        { kind := .functionDef, name := some name, lineno := line, colOffset := col,
          argNames := args, endLineno := endL, sourceSegment := seg }).id := by
  have h1 : line - 1 + 1 = line := Nat.succ_pred_eq_of_pos hline
  constructor
  · rfl
  · show pathJoin root rel ++ ":" ++ name ++ ":" ++ toString (line - 1 + 1) ++ ":"
        ++ toString col =
      pathJoin root rel ++ ":" ++ name ++ ":" ++ toString line ++ ":" ++ toString col
    rw [h1]

/-- Witness for C2 at the `b.go`/`Bar` scenario (line 1, column 0), with the
tree-sitter id evaluated to its literal value. -/
theorem block_id_format_witness :
    (_parse_python_node (pathJoin "/proj" "b.go")
        { kind := .functionDef, name := some "Bar", lineno := 1, colOffset := 0,
          argNames := [], endLineno := none, sourceSegment := none }).id =
      pathJoin "/proj" "b.go" ++ ":" ++ "Bar" ++ ":" ++ toString 1 ++ ":" ++ toString 0
    ∧ (_parse_other_node (pathJoin "/proj" "b.go")
        { kind := "function_declaration", startRow := 0, startCol := 0, endRow := 0,
          children := [("identifier", "Bar")], codeText := "func Bar()" }).id =
      (_parse_python_node (pathJoin "/proj" "b.go")
        { kind := .functionDef, name := some "Bar", lineno := 1, colOffset := 0,
          argNames := [], endLineno := none, sourceSegment := none }).id
    ∧ (_parse_other_node (pathJoin "/proj" "b.go")
        { kind := "function_declaration", startRow := 0, startCol := 0, endRow := 0,
          children := [("identifier", "Bar")], codeText := "func Bar()" }).id =
      "/proj/b.go:Bar:1:0" :=
  ⟨(block_id_format "/proj" "b.go" "Bar" "function_declaration" "func Bar()" 1 0 0
      [] none none (by decide)).1,
   (block_id_format "/proj" "b.go" "Bar" "function_declaration" "func Bar()" 1 0 0
      [] none none (by decide)).2,
   rfl⟩

/-- The record extracted from `func Bar()` on line 1 of `b.go` under project
root `/proj` (tree-sitter path) as it is upserted into the collection. -/
def barBlock : Block :=
  _parse_other_node (pathJoin "/proj" "b.go")
    { kind := "function_declaration", startRow := 0, startCol := 0, endRow := 0,
      children := [("identifier", "Bar")], codeText := "func Bar()" }

/-- C1: code-bug evaluation. The record upserted for `b.go` carries the
absolute path `/proj/b.go` as its `file_path` metadata (the extractor's
`str(file_path)` with `file_path = Path(project_root) / rel`), but the
deleted-files loop of `run_incremental_indexing` passes the RELATIVE path
`b.go` to the equality filter of `delete_blocks_by_file`, so the deletion
matches no record and the stale record survives the pass — contradicting the
claim (and spec scenario S4). -/
theorem deleted_file_record_survives :
    deleteDeletedPhase [recordOf barBlock] ["b.go"] = [recordOf barBlock]
    ∧ (recordOf barBlock).file_path = "/proj/b.go"
    ∧ "/proj/b.go" ≠ "b.go" := by
  refine ⟨rfl, rfl, by decide⟩

/-- C9 (amended): no mutex guards the two entry points — a state with both
entry points simultaneously active is reachable — and the only exclusion the
scheduler does enforce is via the `running` flag: in every reachable state at
most one periodic worker thread has been spawned, so repeated
`start_auto_indexing` calls do not stack periodic workers. -/
theorem scheduler_single_periodic_worker (s : SchedState)
    (h : SchedReachable initialSched s) :
    s.periodicThreads ≤ 1 := by
  suffices hinv : s.periodicThreads ≤ 1 ∧ (s.running = false → s.periodicThreads = 0) from
    hinv.1
  induction h with
  | refl => exact ⟨by decide, fun _ => rfl⟩
  | tail hr step ih =>
      rename_i b c
      cases step with
      | startAuto_first h0 =>
          have hz : b.periodicThreads = 0 := ih.2 h0
          constructor
          · show b.periodicThreads + 1 ≤ 1
            omega
          · intro hc
            exact absurd hc (by simp)
      | startAuto_again h0 =>
          refine ⟨ih.1, ?_⟩
          intro hc
          show b.periodicThreads = 0
          exact ih.2 hc
      | initEnter h0 => exact ih
      | initExit h0 => exact ih
      | incEnter h0 => exact ih
      | incExit h0 => exact ih

/-- Witness for C9 at the initial scheduler state. -/
theorem scheduler_single_periodic_worker_witness :
    initialSched.periodicThreads ≤ 1 :=
  scheduler_single_periodic_worker initialSched Relation.ReflTransGen.refl
